import Mathlib

/-!
Verification of the AutoJobApplier question-resolution core.

The Python sources are shallowly embedded:

* `find_element_fuzzy` — the fuzzy control locator of `linkedin_backend.py`
  (lines 58-79); `difflib.SequenceMatcher(None, a, b).ratio()` is abstracted
  as a similarity function `sim : String → String → ℚ`.
* the per-question body of `process_application_questions` of
  `linkedin_backend.py` (lines 151-173) over the SQLite `questions` table
  created by `db_handler.py` (`question TEXT PRIMARY KEY, answer TEXT`).
* `get_config_value`, `get_dynamic_config` and `sanitize_key` of
  `indeed_backend.py` (lines 29-71) over the `configparser` `[secrets]`
  section (option names canonicalized to lower case by `optionxform`).
* the keyword `elif` chain deciding questionnaire answers in the main loop
  of `indeed_backend.py` (lines 253-371).

Machine strings are `String`; Python `str.lower` / `str.strip` are modelled
over their ASCII core (`pyLower`, `pyStrip`), and Python's regex class `\w`
over its ASCII core (`isWordChar`).
-/

namespace AutoJobApplier

/-- Python substring containment `needle in hay`, as a `Bool`. -/
def substr (hay needle : String) : Bool :=
  decide (needle.toList <:+: hay.toList)

/-- Model of Python `str.lower()` (ASCII case folding). -/
def pyLower (s : String) : String :=
  (s.toList.map Char.toLower).asString

/-- Model of Python `str.strip()`: drop leading and trailing whitespace. -/
def pyStrip (s : String) : String :=
  (((s.toList.dropWhile Char.isWhitespace).reverse.dropWhile
      Char.isWhitespace).reverse).asString

/-- `substr` is monotone along containment of the needles: whatever contains
`s` also contains any infix of `s`. -/
theorem substr_of_infix {q s t : String} (h : substr q s = true)
    (hts : t.toList <:+: s.toList) : substr q t = true := by
  have hs : s.toList <:+: q.toList := of_decide_eq_true h
  exact decide_eq_true (hts.trans hs)

/-! ## Fuzzy control locator (`linkedin_backend.py`, lines 58-79) -/

/-- A candidate `<input>` control: a DOM identity and the value of its
`placeholder` attribute (`none` models a missing attribute, which
`get_attribute` reports as Python `None`). -/
structure Candidate where
  id : Nat
  placeholder : Option String
deriving DecidableEq, Repr

/-- The scanning loop of `find_element_fuzzy` (lines 66-73): the best
candidate and ratio so far, updated only under a strict `>` comparison;
candidates whose placeholder is missing or empty (falsy in Python) are
skipped.  Both strings are lowercased before the similarity function `sim`
(abstracting `difflib.SequenceMatcher(...).ratio()`) is consulted. -/
def fuzzyLoop (sim : String → String → ℚ) (target : String) :
    List Candidate → Option Candidate × ℚ → Option Candidate × ℚ
  | [], acc => acc
  | c :: cs, acc =>
    match c.placeholder with
    | none => fuzzyLoop sim target cs acc
    | some p =>
      if p = "" then fuzzyLoop sim target cs acc
      else
        let r := sim (pyLower p) (pyLower target)
        if acc.2 < r then fuzzyLoop sim target cs (some c, r)
        else fuzzyLoop sim target cs acc

/-- `find_element_fuzzy` (lines 58-79): scan all candidates starting from
`best_match = None`, `best_ratio = 0.0`; return the best match when it
exists and its ratio reaches the cutoff, otherwise raise, carrying the best
ratio achieved (the `.error` payload). -/
def find_element_fuzzy (sim : String → String → ℚ) (candidates : List Candidate)
    (target : String) (cutoff : ℚ) : Except ℚ Candidate :=
  let best := fuzzyLoop sim target candidates (none, 0)
  match best.1 with
  | some m => if cutoff ≤ best.2 then .ok m else .error best.2
  | none => .error best.2

/-- The candidates carrying a non-empty placeholder, paired with their
similarity ratios, in scan order. -/
def labeledRatios (sim : String → String → ℚ) (target : String)
    (candidates : List Candidate) : List (Candidate × ℚ) :=
  candidates.filterMap fun c =>
    match c.placeholder with
    | none => none
    | some p =>
      if p = "" then none else some (c, sim (pyLower p) (pyLower target))

/-- Best ratio achieved over a ratio list, starting from `r0`. -/
def bestRatio (l : List (Candidate × ℚ)) (r0 : ℚ) : ℚ :=
  l.foldl (fun a p => max a p.2) r0

/-- Declarative reading of the spec, §4.1: considering only candidates with
a non-empty label, if the maximum ratio reaches the cutoff return the first
candidate achieving it, otherwise fail with the maximum ratio achieved. -/
def locateSpec (sim : String → String → ℚ) (candidates : List Candidate)
    (target : String) (cutoff : ℚ) : Except ℚ Candidate :=
  let l := labeledRatios sim target candidates
  let m := bestRatio l 0
  match l.find? fun p => decide (m ≤ p.2) with
  | some q => if cutoff ≤ m then .ok q.1 else .error m
  | none => .error m

/-- The scanning loop restricted to the labelled candidates. -/
def scanBest : List (Candidate × ℚ) → Option Candidate × ℚ → Option Candidate × ℚ
  | [], acc => acc
  | p :: ps, acc =>
    if acc.2 < p.2 then scanBest ps (some p.1, p.2) else scanBest ps acc

theorem fuzzyLoop_eq_scanBest (sim : String → String → ℚ) (target : String) :
    ∀ (l : List Candidate) (acc : Option Candidate × ℚ),
      fuzzyLoop sim target l acc = scanBest (labeledRatios sim target l) acc := by
  intro l
  induction l with
  | nil => intro acc; rfl
  | cons c cs ih =>
    intro acc
    cases hp : c.placeholder with
    | none =>
      have h1 : fuzzyLoop sim target (c :: cs) acc = fuzzyLoop sim target cs acc := by
        simp [fuzzyLoop, hp]
      have h2 : labeledRatios sim target (c :: cs) = labeledRatios sim target cs := by
        simp [labeledRatios, List.filterMap_cons, hp]
      rw [h1, h2, ih]
    | some p =>
      by_cases hep : p = ""
      · have h1 : fuzzyLoop sim target (c :: cs) acc = fuzzyLoop sim target cs acc := by
          simp [fuzzyLoop, hp, hep]
        have h2 : labeledRatios sim target (c :: cs) = labeledRatios sim target cs := by
          simp [labeledRatios, List.filterMap_cons, hp, hep]
        rw [h1, h2, ih]
      · have h2 : labeledRatios sim target (c :: cs)
            = (c, sim (pyLower p) (pyLower target)) :: labeledRatios sim target cs := by
          simp [labeledRatios, List.filterMap_cons, hp, hep]
        rw [h2]
        by_cases hlt : acc.2 < sim (pyLower p) (pyLower target)
        · have h1 : fuzzyLoop sim target (c :: cs) acc
              = fuzzyLoop sim target cs (some c, sim (pyLower p) (pyLower target)) := by
            simp [fuzzyLoop, hp, hep, hlt]
          rw [h1, ih]
          simp [scanBest, hlt]
        · have h1 : fuzzyLoop sim target (c :: cs) acc = fuzzyLoop sim target cs acc := by
            simp [fuzzyLoop, hp, hep, hlt]
          rw [h1, ih]
          simp [scanBest, hlt]

theorem le_bestRatio (l : List (Candidate × ℚ)) :
    ∀ r0 : ℚ, r0 ≤ bestRatio l r0 := by
  induction l with
  | nil => intro r0; exact le_refl _
  | cons p ps ih =>
    intro r0
    calc r0 ≤ max r0 p.2 := le_max_left _ _
    _ ≤ bestRatio ps (max r0 p.2) := ih _
    _ = bestRatio (p :: ps) r0 := rfl

theorem snd_le_bestRatio (l : List (Candidate × ℚ)) :
    ∀ (r0 : ℚ) (p : Candidate × ℚ), p ∈ l → p.2 ≤ bestRatio l r0 := by
  induction l with
  | nil => intro r0 p hp; cases hp
  | cons q qs ih =>
    intro r0 p hp
    rcases List.mem_cons.mp hp with h | h
    · subst h
      calc p.2 ≤ max r0 p.2 := le_max_right _ _
      _ ≤ bestRatio qs (max r0 p.2) := le_bestRatio _ _
    · exact ih _ p h

theorem bestRatio_of_all_le (l : List (Candidate × ℚ)) :
    ∀ r0 : ℚ, (∀ p ∈ l, p.2 ≤ r0) → bestRatio l r0 = r0 := by
  induction l with
  | nil => intro r0 _; rfl
  | cons p ps ih =>
    intro r0 h
    have hp : p.2 ≤ r0 := h p (List.mem_cons_self _ _)
    have : max r0 p.2 = r0 := max_eq_left hp
    show bestRatio ps (max r0 p.2) = r0
    rw [this]
    exact ih r0 fun q hq => h q (List.mem_cons_of_mem _ hq)

theorem bestRatio_le (l : List (Candidate × ℚ)) :
    ∀ (r0 a : ℚ), r0 ≤ a → (∀ p ∈ l, p.2 ≤ a) → bestRatio l r0 ≤ a := by
  induction l with
  | nil => intro r0 a h _; exact h
  | cons p ps ih =>
    intro r0 a h hall
    refine ih _ a (max_le h (hall p (List.mem_cons_self _ _))) ?_
    exact fun q hq => hall q (List.mem_cons_of_mem _ hq)

theorem scanBest_of_all_le (l : List (Candidate × ℚ)) :
    ∀ acc : Option Candidate × ℚ, (∀ p ∈ l, p.2 ≤ acc.2) →
      scanBest l acc = acc := by
  induction l with
  | nil => intro acc _; rfl
  | cons p ps ih =>
    intro acc h
    have hp : ¬ acc.2 < p.2 := not_lt.mpr (h p (List.mem_cons_self _ _))
    simp only [scanBest, if_neg hp]
    exact ih acc fun q hq => h q (List.mem_cons_of_mem _ hq)

theorem scanBest_found (l : List (Candidate × ℚ)) :
    ∀ acc : Option Candidate × ℚ, (∃ p ∈ l, acc.2 < p.2) →
      ∃ q, l.find? (fun p => decide (bestRatio l acc.2 ≤ p.2)) = some q ∧
        scanBest l acc = (some q.1, q.2) ∧ q.2 = bestRatio l acc.2 := by
  induction l with
  | nil => rintro acc ⟨p, hp, -⟩; cases hp
  | cons p ps ih =>
    intro acc hex
    have hM : bestRatio (p :: ps) acc.2 = bestRatio ps (max acc.2 p.2) := rfl
    by_cases hlt : acc.2 < p.2
    · have hmax : max acc.2 p.2 = p.2 := max_eq_right hlt.le
      by_cases hall : ∀ r ∈ ps, r.2 ≤ p.2
      · have hbr : bestRatio (p :: ps) acc.2 = p.2 := by
          rw [hM, hmax]; exact bestRatio_of_all_le ps p.2 hall
        refine ⟨p, ?_, ?_, ?_⟩
        · exact List.find?_cons_of_pos _ (by rw [hbr]; simp)
        · simp only [scanBest, if_pos hlt]
          exact scanBest_of_all_le ps (some p.1, p.2) hall
        · rw [hbr]
      · push_neg at hall
        obtain ⟨r, hr, hrgt⟩ := hall
        obtain ⟨q, hfind, hscan, hq⟩ := ih (some p.1, p.2) ⟨r, hr, hrgt⟩
        have hMM : bestRatio (p :: ps) acc.2 = bestRatio ps p.2 := by
          rw [hM, hmax]
        have hgt : p.2 < bestRatio ps p.2 :=
          lt_of_lt_of_le hrgt (snd_le_bestRatio ps p.2 r hr)
        refine ⟨q, ?_, ?_, ?_⟩
        · rw [List.find?_cons_of_neg _ (by rw [hMM]; simpa using not_le.mpr hgt)]
          rw [hMM]; exact hfind
        · simp only [scanBest, if_pos hlt]; exact hscan
        · rw [hMM]; exact hq
    · have hmax : max acc.2 p.2 = acc.2 := max_eq_left (not_lt.mp hlt)
      have hMM : bestRatio (p :: ps) acc.2 = bestRatio ps acc.2 := by
        rw [hM, hmax]
      obtain ⟨r, hr, hrgt⟩ := hex
      have hrps : r ∈ ps := by
        rcases List.mem_cons.mp hr with h | h
        · exfalso; subst h; exact hlt hrgt
        · exact h
      obtain ⟨q, hfind, hscan, hq⟩ := ih acc ⟨r, hrps, hrgt⟩
      have hgt : p.2 < bestRatio ps acc.2 :=
        lt_of_le_of_lt (not_lt.mp hlt) (lt_of_lt_of_le hrgt (snd_le_bestRatio ps acc.2 r hrps))
      refine ⟨q, ?_, ?_, ?_⟩
      · rw [List.find?_cons_of_neg _ (by rw [hMM]; simpa using not_le.mpr hgt)]
        rw [hMM]; exact hfind
      · simp only [scanBest, if_neg hlt]; exact hscan
      · rw [hMM]; exact hq

theorem labeledRatios_mem {sim : String → String → ℚ} {target : String}
    {candidates : List Candidate} {p : Candidate × ℚ}
    (hp : p ∈ labeledRatios sim target candidates) :
    ∃ c ∈ candidates, ∃ s, c.placeholder = some s ∧ s ≠ "" ∧
      p = (c, sim (pyLower s) (pyLower target)) := by
  simp only [labeledRatios, List.mem_filterMap] at hp
  obtain ⟨c, hc, hf⟩ := hp
  cases hps : c.placeholder with
  | none => rw [hps] at hf; exact absurd hf (by simp)
  | some s =>
    rw [hps] at hf
    simp only [] at hf
    by_cases hs : s = ""
    · rw [if_pos hs] at hf; exact absurd hf (by simp)
    · rw [if_neg hs] at hf
      exact ⟨c, hc, s, hps, hs, (Option.some.inj hf).symm⟩

theorem labeledRatios_mem_intro {sim : String → String → ℚ} {target : String}
    {candidates : List Candidate} {c : Candidate} {s : String}
    (hc : c ∈ candidates) (hs : c.placeholder = some s) (hne : s ≠ "") :
    (c, sim (pyLower s) (pyLower target)) ∈ labeledRatios sim target candidates := by
  simp only [labeledRatios, List.mem_filterMap]
  refine ⟨c, hc, ?_⟩
  rw [hs]
  simp only []
  rw [if_neg hne]

/-- The discrete similarity function: `1` on equal strings, else `0`.  It
satisfies every property assumed of `SequenceMatcher.ratio` by the locator
theorems and instantiates them on concrete inputs. -/
def simEq (a b : String) : ℚ := if a = b then 1 else 0

/-- C1: for every sequence of candidate controls and every target string,
`find_element_fuzzy` scans the candidates left to right, considers only
candidates with a non-empty label, compares lowercased strings, updates the
running best only under a strict `>` comparison (so the first candidate
achieving the maximum ratio wins ties), and returns the best candidate's
control when the maximum ratio is `≥ cutoff`, otherwise fails with an error
carrying the best ratio achieved.  Stated as equality with the declarative
`locateSpec`, for any positive cutoff and any nonnegative similarity
function. -/
theorem find_element_fuzzy_correct (sim : String → String → ℚ)
    (candidates : List Candidate) (target : String) (cutoff : ℚ)
    (hcut : 0 < cutoff) (hsim : ∀ a b, 0 ≤ sim a b) :
    find_element_fuzzy sim candidates target cutoff =
      locateSpec sim candidates target cutoff := by
  have hloop := fuzzyLoop_eq_scanBest sim target candidates (none, 0)
  by_cases hex : ∃ p ∈ labeledRatios sim target candidates, (0:ℚ) < p.2
  · obtain ⟨q, hfind, hscan, hq⟩ := scanBest_found _ (none, 0) hex
    dsimp only at hfind hscan hq
    unfold find_element_fuzzy locateSpec
    rw [hloop, hscan]
    dsimp only
    rw [hfind, ← hq]
  · push_neg at hex
    have hall : ∀ p ∈ labeledRatios sim target candidates, p.2 ≤ (0:ℚ) := hex
    have hscan : scanBest (labeledRatios sim target candidates) (none, 0) = (none, 0) :=
      scanBest_of_all_le _ _ hall
    have hbr : bestRatio (labeledRatios sim target candidates) 0 = 0 :=
      bestRatio_of_all_le _ _ hall
    unfold find_element_fuzzy locateSpec
    rw [hloop, hscan]
    dsimp only
    rw [hbr]
    cases hl : labeledRatios sim target candidates with
    | nil => simp
    | cons p ps =>
      have hp0 : (0:ℚ) ≤ p.2 := by
        obtain ⟨c, -, s, -, -, hps⟩ :=
          labeledRatios_mem (hl ▸ List.mem_cons_self p ps)
        rw [hps]; exact hsim _ _
      rw [List.find?_cons_of_pos _ (by simpa using hp0)]
      simp [not_le.mpr hcut]

/-- Witness for C1: the theorem applied at a concrete scan (a label-less
candidate, an exact lowercased match, and an unrelated label), using the
discrete similarity function. -/
theorem find_element_fuzzy_correct_app :
    find_element_fuzzy simEq
        [⟨0, none⟩, ⟨1, some "Search jobs"⟩, ⟨2, some "City"⟩] "Search Jobs" (1/2) =
      locateSpec simEq
        [⟨0, none⟩, ⟨1, some "Search jobs"⟩, ⟨2, some "City"⟩] "Search Jobs" (1/2) :=
  find_element_fuzzy_correct simEq _ _ _ (by norm_num)
    (fun a b => by unfold simEq; split <;> norm_num)

/-- C8: whenever some candidate's label equals the target up to case (so its
similarity ratio is 1) and the cutoff lies in `(0, 1]`, the locator returns
a candidate whose label matches the target case-insensitively, and never
reports not-found.  The hypotheses on `sim` are the relevant facts about
`SequenceMatcher.ratio`: it is `1` exactly on equal strings and bounded by
`1`. -/
theorem exact_match_selected (sim : String → String → ℚ)
    (candidates : List Candidate) (target : String) (cutoff : ℚ)
    (hself : ∀ s, sim s s = 1) (hub : ∀ a b, sim a b ≤ 1)
    (heq1 : ∀ a b, sim a b = 1 → a = b)
    (c : Candidate) (s : String) (hc : c ∈ candidates) (hcp : c.placeholder = some s)
    (hne : s ≠ "") (hlow : pyLower s = pyLower target)
    (hcut0 : 0 < cutoff) (hcut1 : cutoff ≤ 1) :
    ∃ c' s', find_element_fuzzy sim candidates target cutoff = .ok c' ∧
      c'.placeholder = some s' ∧ pyLower s' = pyLower target := by
  have hmem : (c, sim (pyLower s) (pyLower target)) ∈
      labeledRatios sim target candidates :=
    labeledRatios_mem_intro hc hcp hne
  have ratio1 : sim (pyLower s) (pyLower target) = 1 := by
    rw [hlow]; exact hself _
  have hex : ∃ p ∈ labeledRatios sim target candidates, (0:ℚ) < p.2 :=
    ⟨(c, sim (pyLower s) (pyLower target)), hmem, by rw [ratio1]; norm_num⟩
  obtain ⟨q, hfind, hscan, hq⟩ := scanBest_found _ (none, 0) hex
  dsimp only at hfind hscan hq
  have hub' : ∀ p ∈ labeledRatios sim target candidates, p.2 ≤ (1:ℚ) := by
    intro p hp
    obtain ⟨c', -, s', -, -, hps⟩ := labeledRatios_mem hp
    rw [hps]; exact hub _ _
  have hm1 : bestRatio (labeledRatios sim target candidates) 0 = 1 := by
    refine le_antisymm (bestRatio_le _ _ _ (by norm_num) hub') ?_
    have := snd_le_bestRatio (labeledRatios sim target candidates) 0 _ hmem
    rwa [ratio1] at this
  have hq1 : q.2 = 1 := by rw [hq]; exact hm1
  obtain ⟨c', hc', s', hs', hne', hqeq⟩ :=
    labeledRatios_mem (List.mem_of_find?_eq_some hfind)
  have hs'eq : pyLower s' = pyLower target := by
    apply heq1
    have : q.2 = sim (pyLower s') (pyLower target) := by rw [hqeq]
    rw [← this, hq1]
  refine ⟨q.1, s', ?_, ?_, hs'eq⟩
  · unfold find_element_fuzzy
    rw [fuzzyLoop_eq_scanBest sim target candidates (none, 0), hscan]
    dsimp only
    rw [hq1, if_pos hcut1]
  · rw [hqeq]; exact hs'

/-- Witness for C8: the theorem applied at a concrete candidate list whose
first entry matches the target exactly up to case, with cutoff `1/2`. -/
theorem exact_match_selected_app :
    ∃ c' s', find_element_fuzzy simEq [⟨0, some "Search Jobs"⟩, ⟨1, some "No"⟩]
        "search jobs" (1/2) = .ok c' ∧ c'.placeholder = some s' ∧
        pyLower s' = pyLower "search jobs" :=
  exact_match_selected simEq _ "search jobs" (1/2)
    (fun s => by simp [simEq])
    (fun a b => by unfold simEq; split <;> norm_num)
    (fun a b h => by
      by_cases hab : a = b
      · exact hab
      · simp only [simEq, if_neg hab] at h
        exact absurd h (by norm_num))
    ⟨0, some "Search Jobs"⟩ "Search Jobs" (by simp) rfl (by decide)
    (by decide) (by norm_num) (by norm_num)

/-! ## Indeed question resolution (`indeed_backend.py`, lines 253-371) -/

/-- The configuration values consulted by the questionnaire `elif` chain,
in the order they are fetched at module load (indeed_backend.py,
lines 76-123; values not used by the chain are omitted). -/
structure IndeedConfig where
  add_address : String
  add_phone : String
  add_city : String
  add_postal : String
  add_state : String
  add_github : String
  add_DBS : String
  add_criminal : String
  add_valid_cert : String
  add_university : String
  add_linkedin : String
  add_sponsorship : String
  add_workauthorized : String
  add_education : String
  add_leadershipdevelopment : String
  add_salary : String
  add_gender : String
  add_disability : String
  add_commute : String
  add_commute2 : String
  add_shift : String
  add_available : String
  add_interview_dates : String
  add_java : String
  add_aws : String
  add_python : String
  add_analysis : String
  add_django : String
  add_javascript : String
  add_programming : String
  add_teaching : String
  add_default_experience : String
deriving DecidableEq, Repr

/-- What a branch of the chain does with the current question. -/
inductive RuleAction where
  /-- `answer = value`: the value is typed into the question's input field. -/
  | typeText (value : String)
  /-- Click the first choice candidate whose text contains a configured
  value, trying the listed values in order (`try`/`except` nesting);
  `answer = None`. -/
  | select (values : List String)
  /-- The final `else`: derive a dynamic key and prompt (`get_dynamic_config`). -/
  | fallback
deriving DecidableEq, Repr

/-- The answer decision of the Indeed main loop (lines 255-371), transcribed
branch by branch from the `elif` chain over the lowercased question text. -/
def answerQuestion (cfg : IndeedConfig) (q : String) : RuleAction :=
  if substr q "python experience" then .typeText cfg.add_python
  else if substr q "javascript experience" then .typeText cfg.add_javascript
  else if substr q "analysis experience" then .typeText cfg.add_analysis
  else if substr q "experience" then .typeText cfg.add_default_experience
  else if substr q "phone" then .typeText cfg.add_phone
  else if substr q "address" then .typeText cfg.add_address
  else if substr q "city" then .typeText cfg.add_city
  else if substr q "github url" then .typeText cfg.add_github
  else if substr q "teaching experience" then .typeText cfg.add_teaching
  else if substr q "aws experience" then .typeText cfg.add_aws
  else if substr q "django experience" || substr q "selenium experience" then
    .typeText cfg.add_django
  else if substr q "leadership experience" then .typeText cfg.add_leadershipdevelopment
  else if substr q "programming experience" then .typeText cfg.add_programming
  else if substr q "salary" then .typeText cfg.add_salary
  else if substr q "gender" then .typeText cfg.add_gender
  else if substr q "postal" || substr q "zip" then .typeText cfg.add_postal
  else if substr q "state" then .typeText cfg.add_state
  else if substr q "linkedin url" then .typeText cfg.add_linkedin
  else if substr q "college" then .typeText cfg.add_university
  else if substr q "java experience" then .typeText cfg.add_java
  else if substr q "interview" then .typeText cfg.add_interview_dates
  else if substr q "available to work the following hours" then .typeText cfg.add_available
  else if (["authorization", "authorized", "right to work", "authorisation",
      "authorised"].any fun kw => substr q kw) then .select [cfg.add_workauthorized]
  else if substr q "level of education" then .select [cfg.add_education]
  else if substr q "sponsorship" then .select [cfg.add_sponsorship]
  else if substr q "commute" || substr q "travel" then
    .select [cfg.add_commute, cfg.add_commute2]
  else if substr q "shift" then .select [cfg.add_shift]
  else if substr q "veteran" || substr q "disability" then .select [cfg.add_disability]
  else if substr q "DBS" then .select [cfg.add_DBS]
  else if substr q "criminal" then .select [cfg.add_criminal, cfg.add_criminal]
  else if substr q "valid" then .select [cfg.add_valid_cert]
  else if substr q "hear about this position" then .select [cfg.add_disability]
  else .fallback

/-- The spec's reading of the chain (§4.2): an ordered list of
(keyword-set, resolution) pairs, in the exact order of the `elif` chain.  A
rule matches when any of its keywords occurs in the question text. -/
def ruleTable (cfg : IndeedConfig) : List (List String × RuleAction) :=
  [ (["python experience"], .typeText cfg.add_python)
  , (["javascript experience"], .typeText cfg.add_javascript)
  , (["analysis experience"], .typeText cfg.add_analysis)
  , (["experience"], .typeText cfg.add_default_experience)
  , (["phone"], .typeText cfg.add_phone)
  , (["address"], .typeText cfg.add_address)
  , (["city"], .typeText cfg.add_city)
  , (["github url"], .typeText cfg.add_github)
  , (["teaching experience"], .typeText cfg.add_teaching)
  , (["aws experience"], .typeText cfg.add_aws)
  , (["django experience", "selenium experience"], .typeText cfg.add_django)
  , (["leadership experience"], .typeText cfg.add_leadershipdevelopment)
  , (["programming experience"], .typeText cfg.add_programming)
  , (["salary"], .typeText cfg.add_salary)
  , (["gender"], .typeText cfg.add_gender)
  , (["postal", "zip"], .typeText cfg.add_postal)
  , (["state"], .typeText cfg.add_state)
  , (["linkedin url"], .typeText cfg.add_linkedin)
  , (["college"], .typeText cfg.add_university)
  , (["java experience"], .typeText cfg.add_java)
  , (["interview"], .typeText cfg.add_interview_dates)
  , (["available to work the following hours"], .typeText cfg.add_available)
  , (["authorization", "authorized", "right to work", "authorisation",
      "authorised"], .select [cfg.add_workauthorized])
  , (["level of education"], .select [cfg.add_education])
  , (["sponsorship"], .select [cfg.add_sponsorship])
  , (["commute", "travel"], .select [cfg.add_commute, cfg.add_commute2])
  , (["shift"], .select [cfg.add_shift])
  , (["veteran", "disability"], .select [cfg.add_disability])
  , (["DBS"], .select [cfg.add_DBS])
  , (["criminal"], .select [cfg.add_criminal, cfg.add_criminal])
  , (["valid"], .select [cfg.add_valid_cert])
  , (["hear about this position"], .select [cfg.add_disability]) ]

/-- First-match evaluation of an ordered rule table: the first rule one of
whose keywords occurs in the question decides; later rules are never
consulted; no match falls through to the dynamic-key path. -/
def firstRule (q : String) : List (List String × RuleAction) → RuleAction
  | [] => .fallback
  | r :: rs => if r.1.any (fun k => substr q k) then r.2 else firstRule q rs

/-- A concrete configuration with pairwise-distinct values, for
instantiating the rule-table theorems. -/
def cfgEx : IndeedConfig where
  add_address := "1 Main St"
  add_phone := "555-0100"
  add_city := "Boston"
  add_postal := "02110"
  add_state := "MA"
  add_github := "gh"
  add_DBS := "Yes"
  add_criminal := "No"
  add_valid_cert := "Yes c"
  add_university := "NEU"
  add_linkedin := "li"
  add_sponsorship := "No s"
  add_workauthorized := "Yes"
  add_education := "Bachelor"
  add_leadershipdevelopment := "3"
  add_salary := "100000"
  add_gender := "Decline"
  add_disability := "No d"
  add_commute := "Yes com"
  add_commute2 := "No com"
  add_shift := "Day shift"
  add_available := "Yes av"
  add_interview_dates := "Monday"
  add_java := "4"
  add_aws := "1"
  add_python := "5"
  add_analysis := "3 an"
  add_django := "2 dj"
  add_javascript := "3 js"
  add_programming := "6"
  add_teaching := "1 t"
  add_default_experience := "2"

/-- C2: for every question text, the decision of the `elif` chain equals the
first-match scan of the fixed, ordered rule table, so the first matching
category decides and later categories are never consulted.  In particular a
question containing both "python experience" and "analysis experience"
always resolves via the python category, which is listed first. -/
theorem rule_table_first_match_wins (cfg : IndeedConfig) (q : String) :
    answerQuestion cfg q = firstRule q (ruleTable cfg) ∧
    (substr q "python experience" = true → substr q "analysis experience" = true →
      answerQuestion cfg q = .typeText cfg.add_python) := by
  constructor
  · simp only [answerQuestion, ruleTable, firstRule, List.any_cons, List.any_nil,
      Bool.or_false]
  · intro hp _
    simp only [answerQuestion, hp]
    rfl

/-- Witness for C2: applied to a question containing both keywords, the
decision is the configured python answer (the category listed first). -/
theorem rule_table_first_match_wins_app :
    answerQuestion cfgEx "years of python experience analysis experience" =
      .typeText cfgEx.add_python :=
  (rule_table_first_match_wins cfgEx
      "years of python experience analysis experience").2 (by decide) (by decide)

/-- `question.find_element(By.XPATH, '//*[contains(text(), v)]').click()`
over the question's choice candidates: clicks the first candidate whose
visible label contains `v`; `none` models the raised `NoSuchElementException`. -/
def tryClick (cands : List String) (v : String) : Option String :=
  cands.find? fun c => substr c v

/-- Outcome of a choice branch: a candidate was activated, or the question
was left alone (`answer = None` with no click; reported, not fatal). -/
inductive ChoiceOutcome where
  | clicked (label : String)
  | skip
deriving DecidableEq, Repr

/-- The nested `try`/`except` click attempts of a choice branch of the
Indeed main loop (lines 300-305: work authorization, a single attempt;
lines 318-327: commute, a second attempt with the alternative configured
value): try each value in order and on total failure swallow the exception
and move on. -/
def execSelect (cands : List String) : List String → ChoiceOutcome
  | [] => .skip
  | v :: vs =>
    match tryClick cands v with
    | some c => .clicked c
    | none => execSelect cands vs

/-- C7: if some candidate label contains the configured expected value, the
engine activates the first such candidate; otherwise a single-value branch
(work authorization) resolves to skip, and a two-value branch (commute)
falls through to its secondary value, skipping only when that also fails.
The function is total: no outcome is a raised error. -/
theorem choice_branch_behavior (cands : List String) (v v2 : String) :
    ((∃ c ∈ cands, substr c v = true) →
      ∃ c, tryClick cands v = some c ∧ substr c v = true ∧ c ∈ cands ∧
        execSelect cands [v] = .clicked c ∧ execSelect cands [v, v2] = .clicked c) ∧
    ((∀ c ∈ cands, substr c v = false) →
      execSelect cands [v, v2] = execSelect cands [v2]) ∧
    ((∀ c ∈ cands, substr c v = false) → (∀ c ∈ cands, substr c v2 = false) →
      execSelect cands [v, v2] = .skip) ∧
    ((∀ c ∈ cands, substr c v = false) → execSelect cands [v] = .skip) := by
  have hnone : (∀ c ∈ cands, substr c v = false) → tryClick cands v = none := by
    intro h
    exact List.find?_eq_none.mpr fun x hx => by simp [h x hx]
  have hnone2 : (∀ c ∈ cands, substr c v2 = false) → tryClick cands v2 = none := by
    intro h
    exact List.find?_eq_none.mpr fun x hx => by simp [h x hx]
  refine ⟨?_, ?_, ?_, ?_⟩
  · rintro ⟨c, hc, hcv⟩
    have hsome : (tryClick cands v).isSome :=
      List.find?_isSome.mpr ⟨c, hc, hcv⟩
    obtain ⟨c', hc'⟩ := Option.isSome_iff_exists.mp hsome
    have hc'' : cands.find? (fun c => substr c v) = some c' := hc'
    have hpc : substr c' v = true := by simpa using List.find?_some hc''
    refine ⟨c', hc', hpc, List.mem_of_find?_eq_some hc'', ?_, ?_⟩
    · simp only [execSelect, hc']
    · simp only [execSelect, hc']
  · intro h
    simp only [execSelect, hnone h]
  · intro h h2
    simp only [execSelect, hnone h, hnone2 h2]
  · intro h
    simp only [execSelect, hnone h]

/-- Witness for C7: the spec's concrete scenarios — candidates
`["Yes", "No"]` with expected value `"Yes"` activate `"Yes"`; candidates
`["Y", "N"]` contain no label containing `"Yes"`, so a single-value branch
skips; a two-value branch falls through to its secondary value. -/
theorem choice_branch_behavior_app :
    execSelect ["Yes", "No"] ["Yes"] = .clicked "Yes" ∧
    execSelect ["Y", "N"] ["Yes"] = .skip ∧
    execSelect ["would need to commute", "no"] ["Yes com", "commute"] =
      .clicked "would need to commute" := by
  refine ⟨?_, ?_, ?_⟩
  · obtain ⟨c, hfind, -, -, hone, -⟩ :=
      (choice_branch_behavior ["Yes", "No"] "Yes" "x").1 ⟨"Yes", by simp, by decide⟩
    have hc : c = "Yes" := by
      have ht : tryClick ["Yes", "No"] "Yes" = some "Yes" := by decide
      rw [ht] at hfind
      exact (Option.some.inj hfind).symm
    rw [hc] at hone
    exact hone
  · exact (choice_branch_behavior ["Y", "N"] "Yes" "x").2.2.2 (by decide)
  · have h2 := (choice_branch_behavior ["would need to commute", "no"]
      "Yes com" "commute").2.1 (by decide)
    rw [h2]
    obtain ⟨c, hfind, -, -, hone, -⟩ :=
      (choice_branch_behavior ["would need to commute", "no"] "commute" "x").1
        ⟨"would need to commute", by simp, by decide⟩
    have hc : c = "would need to commute" := by
      have ht : tryClick ["would need to commute", "no"] "commute" =
          some "would need to commute" := by decide
      rw [ht] at hfind
      exact (Option.some.inj hfind).symm
    rw [hc] at hone
    exact hone

/-- The rule table with its teaching-experience entry (index 8) deleted. -/
def ruleTableNoTeaching (cfg : IndeedConfig) : List (List String × RuleAction) :=
  (ruleTable cfg).eraseIdx 8

/-- C10 counterexample: a question containing "teaching experience" that
also contains "python experience" resolves to the configured python answer,
not the configured default experience answer. -/
theorem teaching_rule_claim_cex :
    substr "python experience teaching experience" "teaching experience" = true ∧
    answerQuestion cfgEx "python experience teaching experience" =
      .typeText "5" ∧
    cfgEx.add_default_experience = "2" ∧ ("5" : String) ≠ "2" := by decide

/-- C10 amended: the teaching-experience branch is unreachable — deleting
its entry from the rule table never changes the decision — and a question
containing "teaching experience" but none of the three earlier skill
keywords resolves to the configured default experience answer (the generic
"experience" rule fires first). -/
theorem teaching_rule_shadowed (cfg : IndeedConfig) (q : String)
    (ht : substr q "teaching experience" = true) :
    firstRule q (ruleTable cfg) = firstRule q (ruleTableNoTeaching cfg) ∧
    (substr q "python experience" = false → substr q "javascript experience" = false →
      substr q "analysis experience" = false →
      answerQuestion cfg q = .typeText cfg.add_default_experience) := by
  have he : substr q "experience" = true :=
    substr_of_infix ht (by decide)
  constructor
  · simp only [ruleTableNoTeaching, ruleTable, List.eraseIdx, firstRule,
      List.any_cons, List.any_nil, Bool.or_false, he, if_true]
  · intro h1 h2 h3
    simp only [answerQuestion, h1, h2, h3, he, Bool.false_eq_true, if_false, if_true]

/-- Witness for C10 amended: a question containing "teaching experience" and
no earlier skill keyword resolves to the default experience answer, and the
decision is unchanged when the teaching entry is deleted from the table. -/
theorem teaching_rule_shadowed_app :
    firstRule "years of teaching experience" (ruleTable cfgEx) =
      firstRule "years of teaching experience" (ruleTableNoTeaching cfgEx) ∧
    answerQuestion cfgEx "years of teaching experience" =
      .typeText cfgEx.add_default_experience := by
  have h := teaching_rule_shadowed cfgEx "years of teaching experience" (by decide)
  exact ⟨h.1, h.2 (by decide) (by decide) (by decide)⟩

/-! ## Dynamic key deriver (`indeed_backend.py`, lines 51-56) -/

/-- ASCII core of Python's regex word-character class `\w`. -/
def isWordChar (c : Char) : Bool := c.isAlphanum || c = '_'

/-- Single left-to-right scan implementing `re.sub(r'\W+', '_', text)`: the
flag records whether the previous character belonged to a non-word run, in
which case the run's underscore was already emitted. -/
def subScan : Bool → List Char → List Char
  | _, [] => []
  | false, c :: cs =>
    if isWordChar c then c :: subScan false cs
    else '_' :: subScan true cs
  | true, c :: cs =>
    if isWordChar c then c :: subScan false cs
    else subScan true cs

/-- `sanitize_key` (lines 51-56): `re.sub(r'\W+', '_', text)[:20]` — replace
each run of non-word characters with an underscore, then keep the first 20
characters. -/
def sanitize_key (text : String) : String :=
  ((subScan false text.toList).take 20).asString

theorem dropWhile_length_le' {α : Type} (p : α → Bool) :
    ∀ l : List α, (l.dropWhile p).length ≤ l.length := by
  intro l
  induction l with
  | nil => exact Nat.le_refl _
  | cons c cs ih =>
    rw [List.dropWhile_cons]
    by_cases h : p c
    · simp only [if_pos h]
      exact Nat.le_succ_of_le ih
    · simp only [if_neg h]
      exact Nat.le_refl _

/-- The leftmost-longest reading of the regex substitution, as worded in the
spec (§4.3): each maximal run of non-word characters becomes exactly one
underscore. -/
def replaceRuns : List Char → List Char
  | [] => []
  | c :: cs =>
    if isWordChar c then c :: replaceRuns cs
    else '_' :: replaceRuns (cs.dropWhile fun d => !isWordChar d)
termination_by l => l.length
decreasing_by
  · simp only [List.length_cons]
    exact Nat.lt_succ_of_le (Nat.le_refl _)
  · simp only [List.length_cons]
    exact Nat.lt_succ_of_le (dropWhile_length_le' _ _)

theorem subScan_eq_replaceRuns :
    ∀ l : List Char, subScan false l = replaceRuns l ∧
      subScan true l = replaceRuns (l.dropWhile fun d => !isWordChar d) := by
  intro l
  induction l with
  | nil => constructor <;> simp [subScan, replaceRuns]
  | cons c cs ih =>
    by_cases hw : isWordChar c
    · have hdrop : (c :: cs).dropWhile (fun d => !isWordChar d) = c :: cs := by
        rw [List.dropWhile_cons, if_neg (by simp [hw])]
      have hrr : replaceRuns (c :: cs) = c :: replaceRuns cs := by
        rw [replaceRuns, if_pos hw]
      constructor
      · rw [hrr]
        simp only [subScan, if_pos hw]
        rw [ih.1]
      · rw [hdrop, hrr]
        simp only [subScan, if_pos hw]
        rw [ih.1]
    · have hdrop : (c :: cs).dropWhile (fun d => !isWordChar d) =
          cs.dropWhile (fun d => !isWordChar d) := by
        rw [List.dropWhile_cons, if_pos (by simp [hw])]
      have hrr : replaceRuns (c :: cs) =
          '_' :: replaceRuns (cs.dropWhile fun d => !isWordChar d) := by
        rw [replaceRuns, if_neg hw]
      constructor
      · rw [hrr]
        simp only [subScan, if_neg hw]
        rw [ih.2]
      · rw [hdrop]
        simp only [subScan, if_neg hw]
        rw [ih.2]

/-- C5: the dynamic key deriver replaces every maximal run of non-word
characters with a single underscore and truncates the result to at most 20
characters.  It is a pure Lean function, so identical input yields an
identical slug on every call, and that slug has length at most 20. -/
theorem sanitize_key_spec (text : String) :
    sanitize_key text = ((replaceRuns text.toList).take 20).asString ∧
    (sanitize_key text).length ≤ 20 := by
  constructor
  · unfold sanitize_key
    rw [(subScan_eq_replaceRuns text.toList).1]
  · unfold sanitize_key
    rw [List.length_asString, List.length_take]
    exact min_le_left _ _

/-! ## Answer Store (`db_handler.py`; `linkedin_backend.py`, lines 146-180) -/

/-- `SELECT answer FROM questions WHERE question = ?`: the answer of the row
stored under the exact question text, if any. -/
def lookupAnswer (db : List (String × String)) (q : String) : Option String :=
  (db.find? fun row => decide (row.1 = q)).map Prod.snd

/-- `INSERT INTO questions (question, answer) VALUES (?, ?)` against the
`questions (question TEXT PRIMARY KEY, answer TEXT)` table created by
`db_handler.create_db`: a plain insert, rejected (`IntegrityError`, the
`.error` case) when a row with that primary key already exists. -/
def insertAnswer (db : List (String × String)) (q a : String) :
    Except Unit (List (String × String)) :=
  if db.any fun row => decide (row.1 = q) then .error ()
  else .ok (db ++ [(q, a)])

/-- Number of rows stored under a question key. -/
def countKey (db : List (String × String)) (q : String) : Nat :=
  (db.filter fun row => decide (row.1 = q)).length

/-- The per-question body of `process_application_questions`
(linkedin_backend.py, lines 162-171): look the exact question text up; on a
hit reuse the stored answer with no prompt; on a miss prompt once (`input`)
and insert the response (the insert succeeds — the lookup just missed).
Returns the answer typed into the field, the updated table, and the number
of prompts issued. -/
def processQuestion (db : List (String × String)) (q userInput : String) :
    String × List (String × String) × Nat :=
  match lookupAnswer db q with
  | some a => (a, db, 0)
  | none => (userInput, db ++ [(q, userInput)], 1)

theorem lookupAnswer_append_self (db : List (String × String)) (q a : String)
    (h : lookupAnswer db q = none) :
    lookupAnswer (db ++ [(q, a)]) q = some a := by
  unfold lookupAnswer at h ⊢
  have hfind : db.find? (fun row => decide (row.1 = q)) = none :=
    Option.map_eq_none'.mp h
  rw [List.find?_append, hfind]
  simp

/-- C3 counterexample: against the `questions` table's primary key, `record`
is a plain insert, so `record(q, "a1")` followed by `record(q, "a2")` leaves
the single entry `("q", "a1")` — the second write is rejected and the value
is not `"a2"`. -/
theorem record_last_write_cex :
    insertAnswer [] "q" "a1" = .ok [("q", "a1")] ∧
    insertAnswer [("q", "a1")] "q" "a2" = .error () ∧
    lookupAnswer [("q", "a1")] "q" = some "a1" ∧ ("a1" : String) ≠ "a2" :=
  ⟨rfl, rfl, by decide, by decide⟩

/-- C3 amended: recording on the Answer Store is insert-if-absent
(first-write-wins): recording `a1` under an absent key `q` succeeds and
leaves exactly one entry for `q`, holding `a1`; a subsequent
`record(q, a2)` is rejected by the primary-key constraint, leaving the
store unchanged; and a store with at most one entry per key keeps that
invariant. -/
theorem record_insert_if_absent (db : List (String × String)) (q a1 a2 : String)
    (habs : (db.any fun row => decide (row.1 = q)) = false) :
    insertAnswer db q a1 = .ok (db ++ [(q, a1)]) ∧
    countKey (db ++ [(q, a1)]) q = 1 ∧
    lookupAnswer (db ++ [(q, a1)]) q = some a1 ∧
    insertAnswer (db ++ [(q, a1)]) q a2 = .error () ∧
    (∀ k, countKey db k ≤ 1 → countKey (db ++ [(q, a1)]) k ≤ 1) := by
  have hnotmem : ∀ row ∈ db, ¬ row.1 = q := by
    intro row hrow
    have := List.any_eq_false.mp habs row hrow
    simpa using this
  have hfilq : db.filter (fun row => decide (row.1 = q)) = [] :=
    List.filter_eq_nil_iff.mpr (by intro row hrow; simpa using hnotmem row hrow)
  have hlook : lookupAnswer db q = none := by
    unfold lookupAnswer
    rw [List.find?_eq_none.mpr (by intro row hrow; simpa using hnotmem row hrow)]
    rfl
  refine ⟨?_, ?_, lookupAnswer_append_self db q a1 hlook, ?_, ?_⟩
  · unfold insertAnswer
    rw [habs]
    rfl
  · unfold countKey
    rw [List.filter_append, hfilq]
    simp
  · unfold insertAnswer
    rw [if_pos (by simp [List.any_append])]
  · intro k hk
    unfold countKey at hk ⊢
    rw [List.filter_append, List.length_append]
    by_cases hqk : q = k
    · subst hqk
      rw [hfilq]
      simp
    · have : List.filter (fun row => decide (row.1 = k)) [(q, a1)] = [] := by
        simp [hqk]
      rw [this]
      simpa using hk

/-- Witness for C3 amended: the theorem applied to a store holding one other
key. -/
theorem record_insert_if_absent_app :
    insertAnswer [("other", "x")] "q" "a1" = .ok ([("other", "x")] ++ [("q", "a1")]) ∧
    countKey ([("other", "x")] ++ [("q", "a1")]) "q" = 1 ∧
    lookupAnswer ([("other", "x")] ++ [("q", "a1")]) "q" = some "a1" ∧
    insertAnswer ([("other", "x")] ++ [("q", "a1")]) "q" "a2" = .error () ∧
    (∀ k, countKey [("other", "x")] k ≤ 1 →
      countKey ([("other", "x")] ++ [("q", "a1")]) k ≤ 1) :=
  record_insert_if_absent [("other", "x")] "q" "a1" "a2" (by decide)

/-! ## Config Resolver (`indeed_backend.py`, lines 15-71) -/

/-- Option lookup in the `[secrets]` section.  `configparser` canonicalizes
option names to lower case (its default `optionxform`), both on membership
tests and on assignment. -/
def cfgLookup (secrets : List (String × String)) (k : String) : Option String :=
  (secrets.find? fun kv => decide (kv.1 = pyLower k)).map Prod.snd

/-- `config["secrets"][k] = v`: dict-style update in place, appending a new
option when the canonicalized name is absent. -/
def cfgStore : List (String × String) → String → String → List (String × String)
  | [], k, v => [(pyLower k, v)]
  | kv :: rest, k, v =>
    if kv.1 = pyLower k then (kv.1, v) :: rest else kv :: cfgStore rest k v

/-- A value produced through `cast_type` under a bare `except` fallback:
either the cast result or the raw string. -/
inductive CastVal (α : Type) where
  | cast (a : α)
  | raw (s : String)
deriving DecidableEq, Repr

/-- `get_config_value` (lines 29-49).  `cast` models `cast_type` (`none`
models a raised exception), `toStr` models Python `str` on cast values, and
`userInput` the `input()` response.  Returns the produced value, the
updated `[secrets]` section, and the number of interactive prompts
issued. -/
def get_config_value {α : Type} (cast : String → Option α) (toStr : α → String)
    (secrets : List (String × String)) (var_name userInput : String) :
    CastVal α × List (String × String) × Nat :=
  match cfgLookup secrets var_name with
  | some value =>
    match cast value with
    | some a => (.cast a, secrets, 0)
    | none => (.raw value, secrets, 0)
  | none =>
    match cast userInput with
    | some a => (.cast a, cfgStore secrets var_name (toStr a), 1)
    | none => (.raw userInput, cfgStore secrets var_name userInput, 1)

/-- `get_dynamic_config` (lines 58-71): key `"custom_" + key_base`, no cast;
on a miss, prompt and store the raw response. -/
def get_dynamic_config (secrets : List (String × String))
    (key_base userInput : String) : String × List (String × String) × Nat :=
  match cfgLookup secrets ("custom_" ++ key_base) with
  | some value => (value, secrets, 0)
  | none => (userInput, cfgStore secrets ("custom_" ++ key_base) userInput, 1)

theorem cfgLookup_cfgStore_self (k v : String) :
    ∀ secrets : List (String × String),
      cfgLookup (cfgStore secrets k v) k = some v := by
  intro secrets
  induction secrets with
  | nil =>
    unfold cfgStore cfgLookup
    rw [List.find?_cons_of_pos _ (by simp)]
    rfl
  | cons kv rest ih =>
    by_cases h : kv.1 = pyLower k
    · unfold cfgStore
      rw [if_pos h]
      unfold cfgLookup
      rw [List.find?_cons_of_pos _ (by simp [h])]
      rfl
    · unfold cfgStore
      rw [if_neg h]
      unfold cfgLookup
      rw [List.find?_cons_of_neg _ (by simp [h])]
      exact ih

/-- C6: on a store hit, `get_config_value` applies the caster to the stored
string, and a failed cast silently yields the raw stored string (no prompt,
no failure); on a miss it prompts, casts the response the same way,
persists the string form of the produced answer — retrievable under the
same key — and returns the cast value. -/
theorem get_config_value_cast_behavior {α : Type} (cast : String → Option α)
    (toStr : α → String) (secrets : List (String × String))
    (var_name userInput : String) :
    (∀ v, cfgLookup secrets var_name = some v →
      (cast v = none → get_config_value cast toStr secrets var_name userInput =
        (.raw v, secrets, 0)) ∧
      (∀ a, cast v = some a → get_config_value cast toStr secrets var_name userInput =
        (.cast a, secrets, 0))) ∧
    (cfgLookup secrets var_name = none →
      (∀ a, cast userInput = some a →
        get_config_value cast toStr secrets var_name userInput =
          (.cast a, cfgStore secrets var_name (toStr a), 1) ∧
        cfgLookup (cfgStore secrets var_name (toStr a)) var_name = some (toStr a)) ∧
      (cast userInput = none →
        get_config_value cast toStr secrets var_name userInput =
          (.raw userInput, cfgStore secrets var_name userInput, 1) ∧
        cfgLookup (cfgStore secrets var_name userInput) var_name = some userInput)) := by
  constructor
  · intro v hv
    constructor
    · intro hc
      unfold get_config_value
      rw [hv]
      simp only []
      rw [hc]
    · intro a hc
      unfold get_config_value
      rw [hv]
      simp only []
      rw [hc]
  · intro hv
    constructor
    · intro a hc
      refine ⟨?_, cfgLookup_cfgStore_self _ _ _⟩
      unfold get_config_value
      rw [hv]
      simp only []
      rw [hc]
    · intro hc
      refine ⟨?_, cfgLookup_cfgStore_self _ _ _⟩
      unfold get_config_value
      rw [hv]
      simp only []
      rw [hc]

/-- Decimal parsing of a numeric string, a concrete stand-in for a Python
`cast_type` such as `int` that raises on non-numeric input. -/
def parseNat (s : String) : Option Nat :=
  if s.toList ≠ [] ∧ s.toList.all Char.isDigit then
    some (s.toList.foldl (fun n c => 10 * n + (c.toNat - 48)) 0)
  else none

/-- Witness for C6: a stored value `"abc"` that numeric casting rejects is
returned raw; a missing key prompts, and the prompted `"7"` is cast to the
number `7` while its string form is persisted. -/
theorem get_config_value_cast_behavior_app :
    get_config_value parseNat (fun n => toString n)
        [("retries", "abc")] "retries" "7" = (.raw "abc", [("retries", "abc")], 0) ∧
    get_config_value parseNat (fun n => toString n)
        [("retries", "abc")] "delay" "7" =
      (.cast 7, cfgStore [("retries", "abc")] "delay" (toString 7), 1) := by
  constructor
  · exact ((get_config_value_cast_behavior parseNat (fun n => toString n)
      [("retries", "abc")] "retries" "7").1 "abc" (by decide)).1 (by decide)
  · exact (((get_config_value_cast_behavior parseNat (fun n => toString n)
      [("retries", "abc")] "delay" "7").2 (by decide)).1 7 (by decide)).1

/-- C4: prompt-and-remember round trip.  For a key absent from the
persistent store, the first lookup prompts exactly once and persists the
prompted answer, and a second lookup with the identical key returns the
persisted value without prompting — for the Config Resolver
(`get_config_value` with its default `cast_type=str`, the always-succeeding
identity cast) and for the Answer Store (the per-question body of
`process_application_questions`, keyed by the identical question text). -/
theorem prompt_once_round_trip (secrets db : List (String × String))
    (key question input1 input2 input3 : String)
    (hmiss : cfgLookup secrets key = none)
    (hq : lookupAnswer db question = none) :
    (get_config_value some id secrets key input1 =
        (.cast input1, cfgStore secrets key input1, 1) ∧
      cfgLookup (cfgStore secrets key input1) key = some input1 ∧
      get_config_value some id (cfgStore secrets key input1) key input2 =
        (.cast input1, cfgStore secrets key input1, 0)) ∧
    (processQuestion db question input1 =
        (input1, db ++ [(question, input1)], 1) ∧
      lookupAnswer (db ++ [(question, input1)]) question = some input1 ∧
      processQuestion (db ++ [(question, input1)]) question input3 =
        (input1, db ++ [(question, input1)], 0)) := by
  have hlook2 : lookupAnswer (db ++ [(question, input1)]) question = some input1 :=
    lookupAnswer_append_self db question input1 hq
  refine ⟨⟨?_, cfgLookup_cfgStore_self key input1 secrets, ?_⟩, ?_, hlook2, ?_⟩
  · unfold get_config_value
    rw [hmiss]
    rfl
  · unfold get_config_value
    rw [cfgLookup_cfgStore_self key input1 secrets]
  · unfold processQuestion
    rw [hq]
  · unfold processQuestion
    rw [hlook2]

/-- Witness for C4: the round trip on an empty config store and an empty
answer store, with the spec's concrete key, question and answer. -/
theorem prompt_once_round_trip_app :
    (get_config_value some id [] "missing_key" "42" =
        (.cast "42", cfgStore [] "missing_key" "42", 1) ∧
      cfgLookup (cfgStore [] "missing_key" "42") "missing_key" = some "42" ∧
      get_config_value some id (cfgStore [] "missing_key" "42") "missing_key" "other" =
        (.cast "42", cfgStore [] "missing_key" "42", 0)) ∧
    (processQuestion [] "Please describe your favorite achievement" "42" =
        ("42", [] ++ [("Please describe your favorite achievement", "42")], 1) ∧
      lookupAnswer ([] ++ [("Please describe your favorite achievement", "42")])
          "Please describe your favorite achievement" = some "42" ∧
      processQuestion ([] ++ [("Please describe your favorite achievement", "42")])
          "Please describe your favorite achievement" "unused" =
        ("42", [] ++ [("Please describe your favorite achievement", "42")], 0)) :=
  prompt_once_round_trip [] [] "missing_key"
    "Please describe your favorite achievement" "42" "other" "unused"
    (by decide) (by decide)

/-! ## Store keys (linkedin_backend.py, line 154; indeed_backend.py, lines 253, 368-371) -/

/-- LinkedIn question-key extraction (linkedin_backend.py, line 154):
`label_elem.text.strip()` — surrounding whitespace removed, nothing more. -/
def linkedinQuestionKey (raw : String) : String := pyStrip raw

/-- Indeed question-text extraction (indeed_backend.py, line 253):
`...text.lower()` — the text is case-folded before any use. -/
def indeedQuestionText (raw : String) : String := pyLower raw

/-- The Indeed fallback store key (lines 63 and 368-371):
`"custom_" + sanitize_key(question_text)`. -/
def indeedDynamicKey (raw : String) : String :=
  "custom_" ++ sanitize_key (indeedQuestionText raw)

/-- C9 counterexample: in the Indeed backend, two questions differing only
in capitalization and punctuation receive the same persistent store key —
extraction case-folds and the derived key strips punctuation. -/
theorem store_key_not_normalized_cex :
    ("GPA?" : String) ≠ "gpa!" ∧
    indeedDynamicKey "GPA?" = "custom_gpa_" ∧
    indeedDynamicKey "gpa!" = "custom_gpa_" := by
  refine ⟨by decide, ?_, ?_⟩ <;> rfl

/-- C9 amended: in the LinkedIn backend the Answer Store key is the
extracted text with surrounding whitespace stripped and not otherwise
normalized, so texts whose stripped forms differ (in particular texts
differing in punctuation or capitalization) are distinct keys whose stored
answers never alias; in the Indeed backend the extracted text is
case-folded and unknown questions are keyed by a derived slug, which can
identify such questions (see the counterexample). -/
theorem store_key_trim_only (raw t1 t2 a : String) (db : List (String × String))
    (hne : pyStrip t1 ≠ pyStrip t2) :
    linkedinQuestionKey raw = pyStrip raw ∧
    indeedQuestionText raw = pyLower raw ∧
    lookupAnswer ((linkedinQuestionKey t1, a) :: db) (linkedinQuestionKey t2) =
      lookupAnswer db (linkedinQuestionKey t2) := by
  refine ⟨rfl, rfl, ?_⟩
  unfold lookupAnswer
  rw [List.find?_cons_of_neg]
  simpa [linkedinQuestionKey, pyStrip] using hne

/-- Witness for C9 amended: two questions differing only in capitalization
are distinct LinkedIn store keys; recording under one leaves lookups of the
other untouched. -/
theorem store_key_trim_only_app :
    linkedinQuestionKey " Q " = pyStrip " Q " ∧
    indeedQuestionText " Q " = pyLower " Q " ∧
    lookupAnswer [(linkedinQuestionKey "Your GPA?", "3.9")] (linkedinQuestionKey "your gpa?") =
      lookupAnswer [] (linkedinQuestionKey "your gpa?") :=
  store_key_trim_only " Q " "Your GPA?" "your gpa?" "3.9" [] (by decide)

end AutoJobApplier
